import Mathlib

/-!
Shallow embedding of the sharded concurrent LRU cache
(`lrucache.h` / `scale-lrucache.h`, namespace `LRUC`) and proofs of the
specified properties, under a sequential (single-thread) execution model:
every lock acquisition succeeds, every try-lock succeeds, and the atomic
compare-and-swap observes the value the operation itself last wrote.

The `tbb::concurrent_hash_map` is modelled as an association list in
insertion order; a recency-list node is identified by the key it carries
(each live key owns exactly one node).  The `std::atomic<size_t>` counter
`current_size_` is a `Nat` whose increment and decrement wrap at `2 ^ 64`,
as `size_t` arithmetic does.
-/

namespace LRUC

/-- Width bound of the C++ `size_t` type: counter arithmetic wraps at `2 ^ 64`. -/
def W64 : Nat := 2 ^ 64

/-- The post-increment `current_size_++` on a `std::atomic<size_t>`, wrapping
at `2 ^ 64`.  On the `size_t` domain `n < 2 ^ 64` this definition agrees with
`(n + 1) % 2 ^ 64`; see `incSize_eq_mod`. -/
def incSize (n : Nat) : Nat := if n + 1 = W64 then 0 else n + 1

/-- The decrement `current_size_--` on a `std::atomic<size_t>`, wrapping at
`2 ^ 64`.  On the `size_t` domain `n < 2 ^ 64` this definition agrees with
`(n + (2 ^ 64 - 1)) % 2 ^ 64`; see `decSize_eq_mod`. -/
def decSize (n : Nat) : Nat := if n = 0 then W64 - 1 else n - 1

variable {K V : Type}

/-- Lookup (`hash_map_.find`) in the association-list model of `tbb::concurrent_hash_map`. -/
def mapFind [DecidableEq K] : List (K × V) → K → Option V
  | [], _ => none
  | (k0, v0) :: rest, k => if k0 = k then some v0 else mapFind rest k

/-- Erasure (`hash_map_.erase`) in the association-list model of `tbb::concurrent_hash_map`. -/
def mapErase [DecidableEq K] : List (K × V) → K → List (K × V)
  | [], _ => []
  | (k0, v0) :: rest, k => if k0 = k then rest else (k0, v0) :: mapErase rest k

/-- The keys present in the hash-map model, in insertion order. -/
def mapKeys (m : List (K × V)) : List K := m.map Prod.fst

/-- Model of `LRUCache::ConstAccessor`.  `full` tells whether the wrapped
`tbb::concurrent_hash_map::const_accessor` currently points at a map entry
(`empty()` is its negation); `value` is the copy of the stored value taken by
`setValue()` at lookup time. -/
structure ConstAccessor (V : Type) where
  full : Bool
  value : V
  deriving DecidableEq

/-- The `ConstAccessor::empty()` predicate: true iff the wrapped accessor points at nothing. -/
def ConstAccessor.empty (ac : ConstAccessor V) : Bool := !ac.full

/-- The `ConstAccessor::get()` / `operator*` dereference: reads the stored value copy. -/
def ConstAccessor.get (ac : ConstAccessor V) : V := ac.value

/-- The `ConstAccessor::release()` call: detaches the wrapped accessor. -/
def ConstAccessor.release (ac : ConstAccessor V) : ConstAccessor V := { ac with full := false }

/-- A default-constructed `ConstAccessor`: the wrapped accessor is empty and the
value member is default-constructed. -/
def ConstAccessor.new [Inhabited V] : ConstAccessor V := { full := false, value := default }

/-- Model of one `LRUC::LRUCache` shard.  `hash_map` is the concurrent hash map,
`order` the doubly linked recency list read from `head_.next_` (least recently
used first) to `tail_.prev_` (most recently used last), `current_size` the
atomic size counter and `cache_size` the fixed capacity.  A node is `inList()`
exactly when its key occurs in `order`. -/
structure LRUCache (K V : Type) where
  hash_map : List (K × V)
  order : List K
  current_size : Nat
  cache_size : Nat
  deriving DecidableEq

/-- The `LRUCache(size, bucketCount)` constructor: empty map, the sentinel list
`head_ ↔ tail_` with nothing between, and `current_size_ = 0`. -/
def LRUCache.init (size : Nat) : LRUCache K V :=
  { hash_map := [], order := [], current_size := 0, cache_size := size }

/-- The private `LRUCache::popFront`: take `head_.next_`; if it is the tail
sentinel return; otherwise unlink it, remember its key, free the node, then
look the key up in the map and, when found, erase it from the map.
It does not touch `current_size_`. -/
def LRUCache.popFront [DecidableEq K] (s : LRUCache K V) : LRUCache K V :=
  match s.order with
  | [] => s
  | candidate :: rest =>
    let s1 : LRUCache K V := { s with order := rest }
    match mapFind s1.hash_map candidate with
    | none => s1
    | some _ => { s1 with hash_map := mapErase s1.hash_map candidate }

/-- The public `LRUCache::insert`.  A fresh node for `key` is allocated; if the
map insert fails the node is deleted and nothing changes.  Otherwise the size
counter is loaded; if it is at or above capacity one entry is evicted through
`popFront` before the node is appended at the MRU end, and the counter is left
alone; below capacity the node is appended and the counter post-incremented.
Finally, if the loaded value exceeded capacity, a compare-and-swap lowers the
counter by one and on success evicts once more (sequentially the CAS compares
the counter against that loaded value). -/
def LRUCache.insert [DecidableEq K] (s : LRUCache K V) (key : K) (value : V) :
    Bool × LRUCache K V :=
  match mapFind s.hash_map key with
  | some _ => (false, s)
  | none =>
    let s1 : LRUCache K V := { s with hash_map := s.hash_map ++ [(key, value)] }
    if s1.current_size ≥ s1.cache_size then
      let s2 := s1.popFront
      let s3 : LRUCache K V := { s2 with order := s2.order ++ [key] }
      if s1.current_size > s3.cache_size ∧ s3.current_size = s1.current_size then
        (true, LRUCache.popFront { s3 with current_size := s1.current_size - 1 })
      else
        (true, s3)
    else
      let s3 : LRUCache K V := { s1 with order := s1.order ++ [key] }
      let s4 : LRUCache K V := { s3 with current_size := incSize s3.current_size }
      if s3.current_size > s4.cache_size ∧ s4.current_size = s3.current_size then
        (true, LRUCache.popFront { s4 with current_size := s3.current_size - 1 })
      else
        (true, s4)

/-- The public `LRUCache::find`.  On a miss the accessor is released and
`false` returned.  On a hit the accessor attaches, `setValue()` copies the
stored value into it, the accessor is released early, and then (under the
always-successful sequential try-lock) if the entry's node is still in the
list it is unlinked and re-appended at the MRU end. -/
def LRUCache.find [DecidableEq K] (s : LRUCache K V) (caccessor : ConstAccessor V) (key : K) :
    Bool × ConstAccessor V × LRUCache K V :=
  match mapFind s.hash_map key with
  | none => (false, caccessor.release, s)
  | some v =>
    let ac1 : ConstAccessor V := { caccessor with full := true }
    let ac2 : ConstAccessor V := { ac1 with value := v }
    let ac3 := ac2.release
    if key ∈ s.order then
      (true, ac3, { s with order := s.order.erase key ++ [key] })
    else
      (true, ac3, s)

/-- The public `LRUCache::erase`.  On a miss return 0.  On a hit read the
entry's node, erase the key from the map, unlink and delete the node if it is
still linked, decrement the size counter, and return 1. -/
def LRUCache.erase [DecidableEq K] (s : LRUCache K V) (key : K) : Nat × LRUCache K V :=
  match mapFind s.hash_map key with
  | none => (0, s)
  | some _ =>
    let s1 : LRUCache K V := { s with hash_map := mapErase s.hash_map key }
    let s2 : LRUCache K V :=
      if key ∈ s1.order then { s1 with order := s1.order.erase key } else s1
    (1, { s2 with current_size := decSize s2.current_size })

/-- The public `LRUCache::clear`: clear the map, drain the list back to the
bare sentinels, set `current_size_ = 0`. -/
def LRUCache.clear (s : LRUCache K V) : LRUCache K V :=
  { s with hash_map := [], order := [], current_size := 0 }

/-- The public `LRUCache::size`: load of `current_size_`. -/
def LRUCache.size (s : LRUCache K V) : Nat := s.current_size

/-- The public `LRUCache::capacity`: the fixed `cache_size_`. -/
def LRUCache.capacity (s : LRUCache K V) : Nat := s.cache_size

/-- One completed public operation on a cache. -/
inductive Op (K V : Type) where
  | insert (k : K) (v : V)
  | find (k : K)
  | erase (k : K)
  | clear

/-- Apply one completed operation to a shard (a `find` is issued with a fresh
default-constructed accessor; its boolean result is discarded). -/
def LRUCache.applyOp [DecidableEq K] [Inhabited V] (s : LRUCache K V) : Op K V → LRUCache K V
  | Op.insert k v => (s.insert k v).2
  | Op.find k => (s.find ConstAccessor.new k).2.2
  | Op.erase k => (s.erase k).2
  | Op.clear => s.clear

/-- Run a sequence of completed operations on a shard, in order. -/
def LRUCache.run [DecidableEq K] [Inhabited V] (s : LRUCache K V) (ops : List (Op K V)) :
    LRUCache K V :=
  ops.foldl LRUCache.applyOp s

/-- Insert a list of key/value pairs one by one, keeping only the final state. -/
def LRUCache.insertAll [DecidableEq K] (s : LRUCache K V) (pairs : List (K × V)) :
    LRUCache K V :=
  pairs.foldl (fun t p => (t.insert p.1 p.2).2) s

/-- Model of `LRUC::ScalableLRUCache`: a vector of owned shards, the total
capacity and the shard count. -/
structure ScalableLRUCache (K V : Type) where
  shards : List (LRUCache K V)
  cache_size : Nat
  shard_count : Nat
  deriving DecidableEq

/-- The `ScalableLRUCache(size, shard_count)` constructor with a positive
shard count: per-shard capacity is `size / shard_count` and the remainder
`size % shard_count` goes into shard 0. -/
def ScalableLRUCache.init (size shard_count : Nat) : ScalableLRUCache K V :=
  let cap := size / shard_count
  let modular := size % shard_count
  { shards := (List.range shard_count).map
      (fun i => LRUCache.init (if i ≠ 0 then cap else cap + modular)),
    cache_size := size,
    shard_count := shard_count }

/-- The private `ScalableLRUCache::shard` selector: hash the key (a `size_t`
result), shift right by `digits − 16 = 48`, reduce modulo the shard count.
The hash object of the `THash` template parameter is the `hash` argument. -/
def ScalableLRUCache.shardIdx (c : ScalableLRUCache K V) (hash : K → Nat) (k : K) : Nat :=
  ((hash k % W64) >>> 48) % c.shard_count

/-- `ScalableLRUCache::insert`: forward to the selected shard. -/
def ScalableLRUCache.insert [DecidableEq K] (c : ScalableLRUCache K V) (hash : K → Nat)
    (k : K) (v : V) : Bool × ScalableLRUCache K V :=
  let i := c.shardIdx hash k
  let r := (c.shards.getD i (LRUCache.init 0)).insert k v
  (r.1, { c with shards := c.shards.set i r.2 })

/-- `ScalableLRUCache::find`: forward to the selected shard. -/
def ScalableLRUCache.find [DecidableEq K] (c : ScalableLRUCache K V) (hash : K → Nat)
    (caccessor : ConstAccessor V) (k : K) : Bool × ConstAccessor V × ScalableLRUCache K V :=
  let i := c.shardIdx hash k
  let r := (c.shards.getD i (LRUCache.init 0)).find caccessor k
  (r.1, r.2.1, { c with shards := c.shards.set i r.2.2 })

/-- `ScalableLRUCache::erase`: forward to the selected shard. -/
def ScalableLRUCache.erase [DecidableEq K] (c : ScalableLRUCache K V) (hash : K → Nat)
    (k : K) : Nat × ScalableLRUCache K V :=
  let i := c.shardIdx hash k
  let r := (c.shards.getD i (LRUCache.init 0)).erase k
  (r.1, { c with shards := c.shards.set i r.2 })

/-- `ScalableLRUCache::clear`: clear every shard. -/
def ScalableLRUCache.clear (c : ScalableLRUCache K V) : ScalableLRUCache K V :=
  { c with shards := c.shards.map LRUCache.clear }

/-- `ScalableLRUCache::size()`: sum the sizes of shards `0 … shard_count − 1`. -/
def ScalableLRUCache.size (c : ScalableLRUCache K V) : Nat :=
  ((List.range c.shard_count).map (fun i => (c.shards.getD i (LRUCache.init 0)).size)).sum

/-- `ScalableLRUCache::capacity()`: sum the capacities of shards `0 … shard_count − 1`. -/
def ScalableLRUCache.capacity (c : ScalableLRUCache K V) : Nat :=
  ((List.range c.shard_count).map (fun i => (c.shards.getD i (LRUCache.init 0)).capacity)).sum

/-- `ScalableLRUCache::capacity(shard_idx)`: the shard's capacity, or 0 when
the index is out of range. -/
def ScalableLRUCache.capacityAt (c : ScalableLRUCache K V) (idx : Nat) : Nat :=
  if idx < c.shard_count then (c.shards.getD idx (LRUCache.init 0)).capacity else 0

/-- `ScalableLRUCache::size(shard_idx)`: the shard's size, or 0 when the index
is out of range. -/
def ScalableLRUCache.sizeAt (c : ScalableLRUCache K V) (idx : Nat) : Nat :=
  if idx < c.shard_count then (c.shards.getD idx (LRUCache.init 0)).size else 0

/-- `ScalableLRUCache::shardCount()`. -/
def ScalableLRUCache.shardCount (c : ScalableLRUCache K V) : Nat := c.shard_count

/-- Apply one completed operation to the scalable cache, routing by key hash. -/
def ScalableLRUCache.applyOp [DecidableEq K] [Inhabited V] (hash : K → Nat)
    (c : ScalableLRUCache K V) : Op K V → ScalableLRUCache K V
  | Op.insert k v => (c.insert hash k v).2
  | Op.find k => (c.find hash ConstAccessor.new k).2.2
  | Op.erase k => (c.erase hash k).2
  | Op.clear => c.clear

/-- Run a sequence of completed operations on the scalable cache, in order. -/
def ScalableLRUCache.run [DecidableEq K] [Inhabited V] (hash : K → Nat)
    (c : ScalableLRUCache K V) (ops : List (Op K V)) : ScalableLRUCache K V :=
  ops.foldl (ScalableLRUCache.applyOp hash) c

/-- Structural invariant I1 of a shard: the recency list and the map keys are
duplicate-free and carry the same key set. -/
def WFcore [DecidableEq K] (s : LRUCache K V) : Prop :=
  s.order.Nodup ∧ (mapKeys s.hash_map).Nodup ∧
  (∀ x ∈ s.order, x ∈ mapKeys s.hash_map) ∧
  (∀ x ∈ mapKeys s.hash_map, x ∈ s.order)

/-- Full invariant of a shard with positive capacity: I1 together with the
size accounting `current_size_ = #entries ≤ capacity` and the `size_t`
bounds on the capacity. -/
def WF [DecidableEq K] (s : LRUCache K V) : Prop :=
  WFcore s ∧ s.current_size = s.hash_map.length ∧
  s.hash_map.length ≤ s.cache_size ∧ 1 ≤ s.cache_size ∧ s.cache_size < W64

/-- Well-formedness of the dispatcher: the shard vector has exactly
`shard_count` entries and every shard satisfies the shard invariant. -/
def DWF [DecidableEq K] (c : ScalableLRUCache K V) : Prop :=
  c.shards.length = c.shard_count ∧ ∀ sh ∈ c.shards, WF sh

section MapLemmas

variable [DecidableEq K]

theorem mapFind_eq_none {m : List (K × V)} {k : K} :
    mapFind m k = none ↔ k ∉ mapKeys m := by
  induction m with
  | nil => simp [mapFind, mapKeys]
  | cons p rest ih =>
    obtain ⟨k0, v0⟩ := p
    by_cases h : k0 = k
    · simp [mapFind, mapKeys, h]
    · simp [mapFind, mapKeys, h, Ne.symm h] at ih ⊢
      exact ih

theorem mem_mapKeys_of_mapFind_eq_some {m : List (K × V)} {k : K} {v : V}
    (h : mapFind m k = some v) : k ∈ mapKeys m := by
  by_contra hk
  rw [← mapFind_eq_none] at hk
  simp [hk] at h

theorem mapFind_eq_some_of_mem {m : List (K × V)} {k : K}
    (h : k ∈ mapKeys m) : ∃ v, mapFind m k = some v := by
  cases hf : mapFind m k with
  | none => exact absurd h (mapFind_eq_none.mp hf)
  | some v => exact ⟨v, rfl⟩

theorem mapFind_append_left {m₁ m₂ : List (K × V)} {k : K}
    (h : k ∈ mapKeys m₁) : mapFind (m₁ ++ m₂) k = mapFind m₁ k := by
  induction m₁ with
  | nil => simp [mapKeys] at h
  | cons p rest ih =>
    obtain ⟨k0, v0⟩ := p
    by_cases hk : k0 = k
    · simp [mapFind, hk]
    · simp [mapKeys, Ne.symm hk] at h
      simp [mapFind, hk, ih (by simpa [mapKeys] using h)]

theorem mapFind_append_right {m₁ m₂ : List (K × V)} {k : K}
    (h : k ∉ mapKeys m₁) : mapFind (m₁ ++ m₂) k = mapFind m₂ k := by
  induction m₁ with
  | nil => simp
  | cons p rest ih =>
    obtain ⟨k0, v0⟩ := p
    simp [mapKeys] at h
    simp [mapFind, Ne.symm h.1, ih (by simpa [mapKeys] using h.2)]

theorem mapErase_append_left {m₁ m₂ : List (K × V)} {k : K}
    (h : k ∈ mapKeys m₁) : mapErase (m₁ ++ m₂) k = mapErase m₁ k ++ m₂ := by
  induction m₁ with
  | nil => simp [mapKeys] at h
  | cons p rest ih =>
    obtain ⟨k0, v0⟩ := p
    by_cases hk : k0 = k
    · simp [mapErase, hk]
    · simp [mapKeys, Ne.symm hk] at h
      simp [mapErase, hk, ih (by simpa [mapKeys] using h)]

theorem mapKeys_mapErase {m : List (K × V)} {k : K} :
    mapKeys (mapErase m k) = (mapKeys m).erase k := by
  induction m with
  | nil => simp [mapErase, mapKeys]
  | cons p rest ih =>
    obtain ⟨k0, v0⟩ := p
    by_cases hk : k0 = k
    · subst hk
      simp [mapErase, mapKeys, List.erase_cons]
    · simp [mapErase, mapKeys, List.erase_cons, hk]
      simpa [mapKeys] using ih

theorem length_mapErase {m : List (K × V)} {k : K}
    (h : k ∈ mapKeys m) : (mapErase m k).length + 1 = m.length := by
  induction m with
  | nil => simp [mapKeys] at h
  | cons p rest ih =>
    obtain ⟨k0, v0⟩ := p
    by_cases hk : k0 = k
    · simp [mapErase, hk]
    · simp [mapKeys, Ne.symm hk] at h
      have hlen := ih (by simpa [mapKeys] using h)
      simp [mapErase, hk]
      omega

theorem mapFind_mapErase_ne {m : List (K × V)} {k k' : K}
    (h : k' ≠ k) : mapFind (mapErase m k) k' = mapFind m k' := by
  induction m with
  | nil => simp [mapErase]
  | cons p rest ih =>
    obtain ⟨k0, v0⟩ := p
    by_cases hk : k0 = k
    · subst hk
      simp [mapErase, mapFind, Ne.symm h]
    · by_cases hk' : k0 = k' <;> simp [mapErase, mapFind, hk, hk', h, ih]

end MapLemmas

theorem mapKeys_append {m₁ m₂ : List (K × V)} :
    mapKeys (m₁ ++ m₂) = mapKeys m₁ ++ mapKeys m₂ := by
  simp [mapKeys]

section SizeLemmas

theorem incSize_eq_mod {n : Nat} (h : n < W64) : incSize n = (n + 1) % W64 := by
  simp only [incSize, W64] at *
  by_cases hc : n + 1 = 2 ^ 64
  · rw [if_pos hc, hc, Nat.mod_self]
  · rw [if_neg hc, Nat.mod_eq_of_lt (by omega)]

theorem decSize_eq_mod {n : Nat} (h : n < W64) :
    decSize n = (n + (W64 - 1)) % W64 := by
  simp only [decSize, W64] at *
  by_cases hc : n = 0
  · subst hc
    rw [if_pos rfl, Nat.zero_add, Nat.mod_eq_of_lt (by omega)]
  · rw [if_neg hc]
    have hsplit : n + (2 ^ 64 - 1) = (n - 1) + 2 ^ 64 := by omega
    rw [hsplit, Nat.add_mod_right, Nat.mod_eq_of_lt (by omega)]

theorem incSize_lt {n : Nat} (h : n + 1 < W64) : incSize n = n + 1 := by
  simp only [incSize]
  rw [if_neg (by omega)]

theorem incSize_ne {n : Nat} : incSize n ≠ n := by
  simp only [incSize, W64]
  split
  · omega
  · omega

theorem decSize_eq {n : Nat} (h1 : 1 ≤ n) : decSize n = n - 1 := by
  simp only [decSize]
  rw [if_neg (by omega)]

end SizeLemmas

section InsertSpec

variable [DecidableEq K]

theorem insert_fst (s : LRUCache K V) (k : K) (v : V) :
    (s.insert k v).1 = true ↔ mapFind s.hash_map k = none := by
  cases h : mapFind s.hash_map k with
  | none =>
    simp only [LRUCache.insert, h]
    split <;> split <;> simp
  | some v0 => simp [LRUCache.insert, h]

theorem insert_spec_nonfull {s : LRUCache K V} {k : K} {v : V}
    (hfind : mapFind s.hash_map k = none) (hsz : s.current_size < s.cache_size) :
    s.insert k v = (true,
      { hash_map := s.hash_map ++ [(k, v)], order := s.order ++ [k],
        current_size := incSize s.current_size, cache_size := s.cache_size }) := by
  obtain ⟨m, ord, cur, cap⟩ := s
  simp only at hsz
  simp only [LRUCache.insert, hfind]
  rw [if_neg (by simpa using Nat.not_le.mpr hsz)]
  rw [if_neg (by simp [incSize_ne])]

theorem insert_spec_full {s : LRUCache K V} {k : K} {v : V} {h0 : K} {rest : List K}
    (hfind : mapFind s.hash_map k = none)
    (horder : s.order = h0 :: rest)
    (hmem : h0 ∈ mapKeys s.hash_map)
    (hge : s.cache_size ≤ s.current_size)
    (hle : s.current_size ≤ s.cache_size) :
    s.insert k v = (true,
      { hash_map := mapErase s.hash_map h0 ++ [(k, v)],
        order := rest ++ [k],
        current_size := s.current_size, cache_size := s.cache_size }) := by
  obtain ⟨w, hw⟩ := mapFind_eq_some_of_mem hmem
  obtain ⟨m, ord, cur, cap⟩ := s
  simp only at hfind hmem hge hle hw horder
  subst horder
  have hfind1 : mapFind (m ++ [(k, v)]) h0 = some w := by
    rw [mapFind_append_left hmem, hw]
  have herase1 : mapErase (m ++ [(k, v)]) h0 = mapErase m h0 ++ [(k, v)] :=
    mapErase_append_left hmem
  simp only [LRUCache.insert, hfind]
  rw [if_pos (by simpa using hge)]
  simp only [LRUCache.popFront, hfind1, herase1]
  rw [if_neg (by simp; omega)]

end InsertSpec

section CorePreservation

variable [DecidableEq K]

theorem WFcore_init (cap : Nat) : WFcore (LRUCache.init cap : LRUCache K V) := by
  refine ⟨List.nodup_nil, ?_, ?_, ?_⟩ <;> simp [LRUCache.init, mapKeys]

theorem popFront_WFcore {s : LRUCache K V} (h : WFcore s) : WFcore s.popFront := by
  obtain ⟨m, ord, cur, cap⟩ := s
  obtain ⟨hord, hkeys, h1, h2⟩ := h
  cases ord with
  | nil => exact ⟨hord, hkeys, h1, h2⟩
  | cons h0 rest =>
    have hmem : h0 ∈ mapKeys m := h1 h0 (by simp)
    obtain ⟨w, hw⟩ := mapFind_eq_some_of_mem hmem
    have hpf : LRUCache.popFront (⟨m, h0 :: rest, cur, cap⟩ : LRUCache K V) =
        ⟨mapErase m h0, rest, cur, cap⟩ := by
      simp only [LRUCache.popFront, hw]
    rw [hpf]
    rw [List.nodup_cons] at hord
    refine ⟨hord.2, ?_, ?_, ?_⟩
    · rw [mapKeys_mapErase]; exact hkeys.erase h0
    · intro x hx
      rw [mapKeys_mapErase, hkeys.mem_erase_iff]
      exact ⟨fun hxeq => hord.1 (hxeq ▸ hx), h1 x (by simp [hx])⟩
    · intro x hx
      rw [mapKeys_mapErase, hkeys.mem_erase_iff] at hx
      have hmo := h2 x hx.2
      simp at hmo
      rcases hmo with hmo | hmo
      · exact absurd hmo hx.1
      · exact hmo

theorem append_WFcore {m : List (K × V)} {ord : List K} {k : K} {v : V}
    {c1 c2 c3 c4 : Nat}
    (h : WFcore (⟨m, ord, c1, c2⟩ : LRUCache K V)) (hk : k ∉ mapKeys m) :
    WFcore (⟨m ++ [(k, v)], ord ++ [k], c3, c4⟩ : LRUCache K V) := by
  obtain ⟨hord, hkeys, h1, h2⟩ := h
  have hkord : k ∉ ord := fun hx => hk (h1 k hx)
  refine ⟨?_, ?_, ?_, ?_⟩
  · simp only [List.nodup_append, List.nodup_cons, List.nodup_nil]
    exact ⟨hord, by simp, by simp [List.Disjoint]; intro a ha hak; exact hkord (hak ▸ ha)⟩
  · rw [mapKeys_append]
    simp only [List.nodup_append, mapKeys, List.map_cons, List.map_nil, List.nodup_cons,
      List.nodup_nil]
    refine ⟨hkeys, by simp, ?_⟩
    simp only [List.Disjoint]
    intro a ha hak
    simp at hak
    exact hk (hak ▸ ha)
  · intro x hx
    rw [mapKeys_append]
    simp only [List.mem_append] at hx ⊢
    rcases hx with hx | hx
    · exact Or.inl (h1 x hx)
    · simp [mapKeys]
      simp at hx
      exact Or.inr hx
  · intro x hx
    rw [mapKeys_append] at hx
    simp only [List.mem_append] at hx ⊢
    rcases hx with hx | hx
    · exact Or.inl (h2 x hx)
    · simp [mapKeys] at hx
      simp [hx]

theorem insert_WFcore {s : LRUCache K V} (hc : WFcore s) (k : K) (v : V) :
    WFcore (s.insert k v).2 := by
  obtain ⟨m, ord, cur, cap⟩ := s
  cases hf : mapFind m k with
  | some w => simpa [LRUCache.insert, hf] using hc
  | none =>
    have hknotin : k ∉ mapKeys m := mapFind_eq_none.mp hf
    -- the state after popFront-and-append in the at-capacity branch
    have hs3 : ∀ c3 c4 : Nat, WFcore
        (⟨(LRUCache.popFront (⟨m ++ [(k, v)], ord, cur, cap⟩ : LRUCache K V)).hash_map,
          (LRUCache.popFront (⟨m ++ [(k, v)], ord, cur, cap⟩ : LRUCache K V)).order ++ [k],
          c3, c4⟩ : LRUCache K V) := by
      intro c3 c4
      cases ord with
      | nil =>
        simp only [LRUCache.popFront]
        exact append_WFcore hc hknotin
      | cons h0 rest =>
        have hmem : h0 ∈ mapKeys m := hc.2.2.1 h0 (by simp)
        obtain ⟨w, hw⟩ := mapFind_eq_some_of_mem hmem
        have hfind1 : mapFind (m ++ [(k, v)]) h0 = some w := by
          rw [mapFind_append_left hmem, hw]
        have hpf : LRUCache.popFront (⟨m ++ [(k, v)], h0 :: rest, cur, cap⟩ : LRUCache K V) =
            ⟨mapErase m h0 ++ [(k, v)], rest, cur, cap⟩ := by
          simp only [LRUCache.popFront, hfind1, mapErase_append_left hmem]
        rw [hpf]
        have hcpf : WFcore (⟨mapErase m h0, rest, cur, cap⟩ : LRUCache K V) := by
          have hpf0 : LRUCache.popFront (⟨m, h0 :: rest, cur, cap⟩ : LRUCache K V) =
              ⟨mapErase m h0, rest, cur, cap⟩ := by
            simp only [LRUCache.popFront, hw]
          exact hpf0 ▸ popFront_WFcore hc
        refine append_WFcore hcpf ?_
        rw [mapKeys_mapErase]
        exact fun hx => hknotin (List.erase_subset _ _ hx)
    simp only [LRUCache.insert, hf]
    split
    · -- at or above capacity: evict, append, possibly CAS-evict again
      split
      · exact popFront_WFcore (hs3 _ _)
      · exact hs3 _ _
    · -- below capacity: plain append and increment
      split
      · exact popFront_WFcore (append_WFcore hc hknotin)
      · exact append_WFcore hc hknotin

theorem find_WFcore {s : LRUCache K V} (hc : WFcore s) (ac : ConstAccessor V) (k : K) :
    WFcore (s.find ac k).2.2 := by
  obtain ⟨m, ord, cur, cap⟩ := s
  cases hf : mapFind m k with
  | none => simpa [LRUCache.find, hf] using hc
  | some w =>
    obtain ⟨hord, hkeys, h1, h2⟩ := hc
    by_cases hmem : k ∈ ord
    · have hres : ((⟨m, ord, cur, cap⟩ : LRUCache K V).find ac k).2.2 =
          ⟨m, ord.erase k ++ [k], cur, cap⟩ := by
        simp only [LRUCache.find, hf]
        rw [if_pos hmem]
      rw [hres]
      refine ⟨?_, hkeys, ?_, ?_⟩
      · simp only [List.nodup_append, List.nodup_cons, List.nodup_nil]
        refine ⟨hord.erase k, by simp, ?_⟩
        simp only [List.Disjoint]
        intro a ha hak
        simp at hak
        rw [hord.mem_erase_iff] at ha
        exact ha.1 hak
      · intro x hx
        simp only [List.mem_append] at hx
        rcases hx with hx | hx
        · exact h1 x (List.erase_subset _ _ hx)
        · simp at hx
          exact h1 x (hx ▸ hmem)
      · intro x hx
        by_cases hxk : x = k
        · simp [hxk]
        · have := h2 x hx
          simp only [List.mem_append]
          exact Or.inl ((hord.mem_erase_iff).mpr ⟨hxk, this⟩)
    · have hres : ((⟨m, ord, cur, cap⟩ : LRUCache K V).find ac k).2.2 =
          ⟨m, ord, cur, cap⟩ := by
        simp only [LRUCache.find, hf]
        rw [if_neg hmem]
      rw [hres]
      exact ⟨hord, hkeys, h1, h2⟩

theorem erase_WFcore {s : LRUCache K V} (hc : WFcore s) (k : K) :
    WFcore (s.erase k).2 := by
  obtain ⟨m, ord, cur, cap⟩ := s
  cases hf : mapFind m k with
  | none => simpa [LRUCache.erase, hf] using hc
  | some w =>
    obtain ⟨hord, hkeys, h1, h2⟩ := hc
    have hmem : k ∈ ord := h2 k (mem_mapKeys_of_mapFind_eq_some hf)
    have hres : ((⟨m, ord, cur, cap⟩ : LRUCache K V).erase k).2 =
        ⟨mapErase m k, ord.erase k, decSize cur, cap⟩ := by
      simp only [LRUCache.erase, hf]
      rw [if_pos hmem]
    rw [hres]
    refine ⟨hord.erase k, ?_, ?_, ?_⟩
    · rw [mapKeys_mapErase]; exact hkeys.erase k
    · intro x hx
      rw [hord.mem_erase_iff] at hx
      rw [mapKeys_mapErase, hkeys.mem_erase_iff]
      exact ⟨hx.1, h1 x hx.2⟩
    · intro x hx
      rw [mapKeys_mapErase, hkeys.mem_erase_iff] at hx
      rw [hord.mem_erase_iff]
      exact ⟨hx.1, h2 x hx.2⟩

theorem clear_WFcore (s : LRUCache K V) : WFcore s.clear := by
  obtain ⟨m, ord, cur, cap⟩ := s
  refine ⟨List.nodup_nil, ?_, ?_, ?_⟩ <;> simp [LRUCache.clear, mapKeys]

theorem applyOp_WFcore [Inhabited V] {s : LRUCache K V} (hc : WFcore s) (op : Op K V) :
    WFcore (s.applyOp op) := by
  cases op with
  | insert k v => exact insert_WFcore hc k v
  | find k => exact find_WFcore hc ConstAccessor.new k
  | erase k => exact erase_WFcore hc k
  | clear => exact clear_WFcore s

theorem run_WFcore [Inhabited V] {s : LRUCache K V} (hc : WFcore s) (ops : List (Op K V)) :
    WFcore (s.run ops) := by
  induction ops generalizing s with
  | nil => exact hc
  | cons op rest ih => exact ih (applyOp_WFcore hc op)

end CorePreservation

section FullPreservation

variable [DecidableEq K]

theorem WF_init {cap : Nat} (h1 : 1 ≤ cap) (h2 : cap < W64) :
    WF (LRUCache.init cap : LRUCache K V) :=
  ⟨WFcore_init cap, rfl, by simp [LRUCache.init], h1, h2⟩

theorem find_frame (s : LRUCache K V) (ac : ConstAccessor V) (k : K) :
    ((s.find ac k).2.2).hash_map = s.hash_map ∧
    ((s.find ac k).2.2).current_size = s.current_size ∧
    ((s.find ac k).2.2).cache_size = s.cache_size ∧
    (((s.find ac k).2.2).order = s.order ∨
      ((s.find ac k).2.2).order = s.order.erase k ++ [k]) := by
  obtain ⟨m, ord, cur, cap⟩ := s
  cases hf : mapFind m k with
  | none => simp [LRUCache.find, hf]
  | some w => by_cases hmem : k ∈ ord <;> simp [LRUCache.find, hf, hmem]

theorem insert_WF {s : LRUCache K V} (h : WF s) (k : K) (v : V) :
    WF (s.insert k v).2 := by
  obtain ⟨hc, hsz, hle, hpos, hlt⟩ := h
  have hcore := insert_WFcore hc k v
  cases hf : mapFind s.hash_map k with
  | some w =>
    have hid : s.insert k v = (false, s) := by simp [LRUCache.insert, hf]
    rw [hid]
    exact ⟨hc, hsz, hle, hpos, hlt⟩
  | none =>
    rcases Nat.lt_or_ge s.current_size s.cache_size with hcase | hcase
    · rw [insert_spec_nonfull hf hcase] at hcore ⊢
      refine ⟨hcore, ?_, ?_, hpos, hlt⟩
      · show incSize s.current_size = (s.hash_map ++ [(k, v)]).length
        rw [incSize_lt (by omega)]
        simp [hsz]
      · show (s.hash_map ++ [(k, v)]).length ≤ s.cache_size
        simp
        omega
    · have hcur : s.current_size = s.cache_size := le_antisymm (hsz ▸ hle) hcase
      have hlen : s.hash_map.length = s.cache_size := by omega
      have hne : s.order ≠ [] := by
        cases hm : s.hash_map with
        | nil => rw [hm] at hlen; simp at hlen; omega
        | cons p prest =>
          have hpk : p.1 ∈ mapKeys s.hash_map := by simp [hm, mapKeys]
          have hpo := hc.2.2.2 p.1 hpk
          intro ho
          rw [ho] at hpo
          simp at hpo
      obtain ⟨h0, rest, horder⟩ : ∃ h0 rest, s.order = h0 :: rest := by
        cases ho : s.order with
        | nil => exact absurd ho hne
        | cons a b => exact ⟨a, b, rfl⟩
      have hmem : h0 ∈ mapKeys s.hash_map := hc.2.2.1 h0 (by simp [horder])
      have herl := length_mapErase hmem
      rw [insert_spec_full hf horder hmem hcase (le_of_eq hcur)] at hcore ⊢
      refine ⟨hcore, ?_, ?_, hpos, hlt⟩
      · show s.current_size = (mapErase s.hash_map h0 ++ [(k, v)]).length
        simp
        omega
      · show (mapErase s.hash_map h0 ++ [(k, v)]).length ≤ s.cache_size
        simp
        omega

theorem find_WF {s : LRUCache K V} (h : WF s) (ac : ConstAccessor V) (k : K) :
    WF (s.find ac k).2.2 := by
  obtain ⟨hc, hsz, hle, hpos, hlt⟩ := h
  obtain ⟨hm, hcur, hcap, _⟩ := find_frame s ac k
  exact ⟨find_WFcore hc ac k, by rw [hm, hcur]; exact hsz,
    by rw [hm, hcap]; exact hle, by rw [hcap]; exact hpos, by rw [hcap]; exact hlt⟩

theorem erase_spec_found {s : LRUCache K V} {k : K} {w : V}
    (hf : mapFind s.hash_map k = some w) (hmem : k ∈ s.order) :
    s.erase k = (1, ⟨mapErase s.hash_map k, s.order.erase k,
      decSize s.current_size, s.cache_size⟩) := by
  obtain ⟨m, ord, cur, cap⟩ := s
  simp only at hf hmem
  simp only [LRUCache.erase, hf]
  rw [if_pos hmem]

theorem erase_WF {s : LRUCache K V} (h : WF s) (k : K) : WF (s.erase k).2 := by
  obtain ⟨hc, hsz, hle, hpos, hlt⟩ := h
  have hcore := erase_WFcore hc k
  cases hf : mapFind s.hash_map k with
  | none =>
    have hid : s.erase k = (0, s) := by simp [LRUCache.erase, hf]
    rw [hid]
    exact ⟨hc, hsz, hle, hpos, hlt⟩
  | some w =>
    have hkmem : k ∈ mapKeys s.hash_map := mem_mapKeys_of_mapFind_eq_some hf
    have hmem : k ∈ s.order := hc.2.2.2 k hkmem
    have herl := length_mapErase hkmem
    rw [erase_spec_found hf hmem] at hcore ⊢
    refine ⟨hcore, ?_, ?_, hpos, hlt⟩
    · show decSize s.current_size = (mapErase s.hash_map k).length
      rw [decSize_eq (by omega)]
      omega
    · show (mapErase s.hash_map k).length ≤ s.cache_size
      omega

theorem clear_WF {s : LRUCache K V} (h : WF s) : WF s.clear := by
  obtain ⟨_, _, _, hpos, hlt⟩ := h
  exact ⟨clear_WFcore s, rfl, by simp [LRUCache.clear], hpos, hlt⟩

theorem applyOp_WF [Inhabited V] {s : LRUCache K V} (h : WF s) (op : Op K V) :
    WF (s.applyOp op) := by
  cases op with
  | insert k v => exact insert_WF h k v
  | find k => exact find_WF h ConstAccessor.new k
  | erase k => exact erase_WF h k
  | clear => exact clear_WF h

theorem run_WF [Inhabited V] {s : LRUCache K V} (h : WF s) (ops : List (Op K V)) :
    WF (s.run ops) := by
  induction ops generalizing s with
  | nil => exact h
  | cons op rest ih => exact ih (applyOp_WF h op)

end FullPreservation

section FillLemma

variable [DecidableEq K]

theorem insertAll_cons (s : LRUCache K V) (p : K × V) (pairs : List (K × V)) :
    s.insertAll (p :: pairs) = ((s.insert p.1 p.2).2).insertAll pairs := rfl

theorem insertAll_fresh :
    ∀ (pairs m : List (K × V)) (cap : Nat),
    (mapKeys (m ++ pairs)).Nodup →
    (m ++ pairs).length ≤ cap → cap < W64 →
    LRUCache.insertAll (⟨m, mapKeys m, m.length, cap⟩ : LRUCache K V) pairs =
      ⟨m ++ pairs, mapKeys (m ++ pairs), (m ++ pairs).length, cap⟩ := by
  intro pairs
  induction pairs with
  | nil => intro m cap _ _ _; simp [LRUCache.insertAll]
  | cons p rest ih =>
    intro m cap hnodup hlen hcap
    obtain ⟨k, v⟩ := p
    have hkfresh : k ∉ mapKeys m := by
      rw [mapKeys_append] at hnodup
      rw [List.nodup_append] at hnodup
      intro hx
      exact hnodup.2.2 hx (by simp [mapKeys])
    have hf : mapFind m k = none := mapFind_eq_none.mpr hkfresh
    have hsz : m.length < cap := by
      simp at hlen
      omega
    rw [insertAll_cons]
    have hstep := insert_spec_nonfull (s := (⟨m, mapKeys m, m.length, cap⟩ : LRUCache K V))
      (v := v) hf hsz
    simp only at hstep
    rw [hstep]
    have hinc : incSize m.length = (m ++ [(k, v)]).length := by
      rw [incSize_lt (by simp at hlen; omega)]
      simp
    have hkeys : mapKeys m ++ [k] = mapKeys (m ++ [(k, v)]) := by
      rw [mapKeys_append]
      simp [mapKeys]
    rw [hinc, hkeys, ih (m ++ [(k, v)]) cap (by simpa using hnodup) (by simpa using hlen) hcap]
    simp

theorem lru_eviction_general (pairs : List (K × V)) (k : K) (v : V) (cap : Nat)
    (hnodup : (mapKeys (pairs ++ [(k, v)])).Nodup)
    (hlen : pairs.length = cap) (hpos : 1 ≤ cap) (hcap : cap < W64) :
    LRUCache.insertAll (LRUCache.init cap) (pairs ++ [(k, v)]) =
      ⟨pairs.tail ++ [(k, v)], (mapKeys pairs).tail ++ [k], cap, cap⟩ := by
  have hfill := insertAll_fresh pairs [] cap (by simpa using
      (by rw [mapKeys_append] at hnodup; rw [List.nodup_append] at hnodup; exact hnodup.1))
    (by simpa using le_of_eq hlen) hcap
  simp only [List.nil_append] at hfill
  have hinit : (LRUCache.init cap : LRUCache K V) =
      ⟨[], mapKeys ([] : List (K × V)), ([] : List (K × V)).length, cap⟩ := by
    simp [LRUCache.init, mapKeys]
  rw [LRUCache.insertAll, List.foldl_append, ← LRUCache.insertAll, ← LRUCache.insertAll,
    hinit, hfill]
  cases pairs with
  | nil => simp at hlen; omega
  | cons p prest =>
    obtain ⟨k0, v0⟩ := p
    have hkfresh : k ∉ mapKeys ((k0, v0) :: prest) := by
      rw [mapKeys_append, List.nodup_append] at hnodup
      intro hx
      exact hnodup.2.2 hx (by simp [mapKeys])
    have hf2 : mapFind ((k0, v0) :: prest) k = none := mapFind_eq_none.mpr hkfresh
    have hmem0 : k0 ∈ mapKeys ((k0, v0) :: prest) := by simp [mapKeys]
    have horder2 : (⟨(k0, v0) :: prest, mapKeys ((k0, v0) :: prest),
        ((k0, v0) :: prest).length, cap⟩ : LRUCache K V).order = k0 :: mapKeys prest := by
      simp [mapKeys]
    have hstep := insert_spec_full
      (s := (⟨(k0, v0) :: prest, mapKeys ((k0, v0) :: prest),
        ((k0, v0) :: prest).length, cap⟩ : LRUCache K V)) (v := v)
      hf2 horder2 hmem0 (by simp at hlen ⊢; omega) (by simp at hlen ⊢; omega)
    simp only at hstep
    have hone : LRUCache.insertAll
        (⟨(k0, v0) :: prest, mapKeys ((k0, v0) :: prest),
          ((k0, v0) :: prest).length, cap⟩ : LRUCache K V) [(k, v)] =
        ((⟨(k0, v0) :: prest, mapKeys ((k0, v0) :: prest),
          ((k0, v0) :: prest).length, cap⟩ : LRUCache K V).insert k v).2 := rfl
    rw [hone, hstep]
    have herase0 : mapErase ((k0, v0) :: prest) k0 = prest := by
      simp [mapErase]
    simp [herase0, mapKeys, hlen]

end FillLemma

theorem getD_mem_of_lt {α : Type} {l : List α} {i : Nat} (d : α)
    (h : i < l.length) : l.getD i d ∈ l := by
  rw [List.getD_eq_getElem l d h]
  exact List.getElem_mem h

theorem getD_range_map {α : Type} (f : Nat → α) (d : α) {i n : Nat} (h : i < n) :
    ((List.range n).map f).getD i d = f i := by
  rw [List.getD_eq_getElem?_getD]
  simp [List.getElem?_map, List.getElem?_range h]

theorem init_shards_getD {total count i : Nat} (h : i < count) :
    (ScalableLRUCache.init total count : ScalableLRUCache K V).shards.getD i
      (LRUCache.init 0) =
      LRUCache.init (if i ≠ 0 then total / count else total / count + total % count) := by
  simp only [ScalableLRUCache.init]
  exact getD_range_map _ _ h

section DispatcherInvariant

variable [DecidableEq K]

theorem shards_set_WF {l : List (LRUCache K V)} {i : Nat} {x : LRUCache K V}
    (hl : ∀ sh ∈ l, WF sh) (hx : i < l.length → WF x) :
    ∀ sh ∈ l.set i x, WF sh := by
  intro sh hsh
  rcases Nat.lt_or_ge i l.length with hi | hi
  · rcases List.mem_or_eq_of_mem_set hsh with hmem | heq
    · exact hl sh hmem
    · exact heq ▸ hx hi
  · rw [List.set_eq_of_length_le hi] at hsh
    exact hl sh hsh

theorem applyOp_DWF [Inhabited V] {c : ScalableLRUCache K V} (h : DWF c)
    (hash : K → Nat) (op : Op K V) : DWF (ScalableLRUCache.applyOp hash c op) := by
  obtain ⟨hlen, hall⟩ := h
  cases op with
  | insert k v =>
    constructor
    · simp only [ScalableLRUCache.applyOp, ScalableLRUCache.insert, List.length_set]
      exact hlen
    · exact shards_set_WF hall (fun hi => insert_WF (hall _ (getD_mem_of_lt _ hi)) k v)
  | find k =>
    constructor
    · simp only [ScalableLRUCache.applyOp, ScalableLRUCache.find, List.length_set]
      exact hlen
    · exact shards_set_WF hall
        (fun hi => find_WF (hall _ (getD_mem_of_lt _ hi)) ConstAccessor.new k)
  | erase k =>
    constructor
    · simp only [ScalableLRUCache.applyOp, ScalableLRUCache.erase, List.length_set]
      exact hlen
    · exact shards_set_WF hall (fun hi => erase_WF (hall _ (getD_mem_of_lt _ hi)) k)
  | clear =>
    constructor
    · simp only [ScalableLRUCache.applyOp, ScalableLRUCache.clear, List.length_map]
      exact hlen
    · intro sh hsh
      have hm : sh ∈ c.shards.map LRUCache.clear := hsh
      simp only [List.mem_map] at hm
      obtain ⟨sh0, hsh0, rfl⟩ := hm
      exact clear_WF (hall sh0 hsh0)

theorem run_DWF [Inhabited V] {c : ScalableLRUCache K V} (h : DWF c)
    (hash : K → Nat) (ops : List (Op K V)) :
    DWF (ScalableLRUCache.run hash c ops) := by
  induction ops generalizing c with
  | nil => exact h
  | cons op rest ih => exact ih (applyOp_DWF h hash op)

theorem init_DWF {total count : Nat} (hcnt : count ≤ total) (hlt : total < W64) :
    DWF (ScalableLRUCache.init total count : ScalableLRUCache K V) := by
  refine ⟨by simp [ScalableLRUCache.init], ?_⟩
  intro sh hsh
  simp only [ScalableLRUCache.init, List.mem_map, List.mem_range] at hsh
  obtain ⟨i, hi, rfl⟩ := hsh
  have hcpos : 0 < count := Nat.lt_of_le_of_lt (Nat.zero_le i) hi
  have hdiv1 : 1 ≤ total / count := (Nat.one_le_div_iff hcpos).mpr hcnt
  have hdivle : total / count ≤ total := Nat.div_le_self total count
  have hmodsum : total / count + total % count ≤ total := by
    have hdm := Nat.div_add_mod total count
    have hmul : total / count ≤ count * (total / count) :=
      Nat.le_mul_of_pos_left _ hcpos
    omega
  refine WF_init ?_ ?_
  · split <;> omega
  · split <;> omega

end DispatcherInvariant

section CapacityArithmetic

theorem sum_range_map_split (cap modular : Nat) :
    ∀ n : Nat, ((List.range (n + 1)).map
      (fun i => if i ≠ 0 then cap else cap + modular)).sum = (cap + modular) + n * cap := by
  intro n
  induction n with
  | zero =>
    have h1 : List.range 1 = [0] := rfl
    simp [h1]
  | succ m ih =>
    rw [List.range_succ, List.map_append, List.sum_append, ih]
    simp [Nat.succ_mul]
    omega

theorem init_capacity {total count : Nat} (h : 0 < count) :
    (ScalableLRUCache.init total count : ScalableLRUCache K V).capacity = total := by
  obtain ⟨n, rfl⟩ : ∃ n, count = n + 1 := ⟨count - 1, by omega⟩
  have hcap : (ScalableLRUCache.init total (n + 1) : ScalableLRUCache K V).capacity =
      ((List.range (n + 1)).map
        (fun i => ((ScalableLRUCache.init total (n + 1)
          : ScalableLRUCache K V).shards.getD i (LRUCache.init 0)).capacity)).sum := rfl
  have hcongr : ((List.range (n + 1)).map
      (fun i => ((ScalableLRUCache.init total (n + 1)
        : ScalableLRUCache K V).shards.getD i (LRUCache.init 0)).capacity)) =
      ((List.range (n + 1)).map
        (fun i => if i ≠ 0 then total / (n + 1) else total / (n + 1) + total % (n + 1))) := by
    apply List.map_congr_left
    intro i hi
    rw [init_shards_getD (List.mem_range.mp hi)]
    rfl
  rw [hcap, hcongr, sum_range_map_split]
  have hdm := Nat.div_add_mod total (n + 1)
  have hsm : (n + 1) * (total / (n + 1)) = n * (total / (n + 1)) + total / (n + 1) :=
    Nat.succ_mul _ _
  omega

theorem init_capacityAt_zero {total count : Nat} (h : 0 < count) :
    (ScalableLRUCache.init total count : ScalableLRUCache K V).capacityAt 0 =
      total / count + total % count := by
  simp only [ScalableLRUCache.capacityAt]
  have hsc : (ScalableLRUCache.init total count : ScalableLRUCache K V).shard_count = count :=
    rfl
  rw [hsc, if_pos h, init_shards_getD h]
  simp [LRUCache.capacity, LRUCache.init]

theorem init_capacityAt_pos {total count i : Nat} (h0 : 0 < i) (h : i < count) :
    (ScalableLRUCache.init total count : ScalableLRUCache K V).capacityAt i =
      total / count := by
  simp only [ScalableLRUCache.capacityAt]
  have hsc : (ScalableLRUCache.init total count : ScalableLRUCache K V).shard_count = count :=
    rfl
  rw [hsc, if_pos h, init_shards_getD h]
  simp [LRUCache.capacity, LRUCache.init, Nat.pos_iff_ne_zero.mp h0]

end CapacityArithmetic

section FindSpec

variable [DecidableEq K]

theorem find_miss {s : LRUCache K V} {k : K} (ac : ConstAccessor V)
    (hf : mapFind s.hash_map k = none) :
    s.find ac k = (false, ac.release, s) := by
  simp [LRUCache.find, hf]

theorem find_hit {s : LRUCache K V} {k : K} {v : V} (ac : ConstAccessor V)
    (hf : mapFind s.hash_map k = some v) :
    (s.find ac k).1 = true ∧ (s.find ac k).2.1 = ⟨false, v⟩ := by
  by_cases ho : k ∈ s.order <;> simp [LRUCache.find, hf, ho, ConstAccessor.release]

theorem insert_mapFind_self {s : LRUCache K V} {k : K} (v : V) (hwf : WF s)
    (hf : mapFind s.hash_map k = none) :
    mapFind ((s.insert k v).2).hash_map k = some v := by
  obtain ⟨hc, hsz, hle, hpos, hlt⟩ := hwf
  have hknotin : k ∉ mapKeys s.hash_map := mapFind_eq_none.mp hf
  rcases Nat.lt_or_ge s.current_size s.cache_size with hcase | hcase
  · rw [insert_spec_nonfull hf hcase]
    show mapFind (s.hash_map ++ [(k, v)]) k = some v
    rw [mapFind_append_right hknotin]
    simp [mapFind]
  · have hcur : s.current_size = s.cache_size := le_antisymm (hsz ▸ hle) hcase
    have hlen : s.hash_map.length = s.cache_size := by omega
    have hne : s.order ≠ [] := by
      cases hm : s.hash_map with
      | nil => rw [hm] at hlen; simp at hlen; omega
      | cons p prest =>
        have hpk : p.1 ∈ mapKeys s.hash_map := by simp [hm, mapKeys]
        have hpo := hc.2.2.2 p.1 hpk
        intro ho
        rw [ho] at hpo
        simp at hpo
    obtain ⟨h0, rest, horder⟩ : ∃ h0 rest, s.order = h0 :: rest := by
      cases ho : s.order with
      | nil => exact absurd ho hne
      | cons a b => exact ⟨a, b, rfl⟩
    have hmem : h0 ∈ mapKeys s.hash_map := hc.2.2.1 h0 (by simp [horder])
    rw [insert_spec_full hf horder hmem hcase (le_of_eq hcur)]
    show mapFind (mapErase s.hash_map h0 ++ [(k, v)]) k = some v
    rw [mapFind_append_right (by
      rw [mapKeys_mapErase]
      exact fun hx => hknotin (List.erase_subset _ _ hx))]
    simp [mapFind]

end FindSpec

/-- Claim C1: on a single shard of capacity 3, after insert(1,10), insert(2,20),
insert(3,30), a find(2) returns true with value 20, and a subsequent
insert(4,40) evicts exactly the least-recently-used untouched key 1 (not the
promoted key 2), so the surviving keys are {2,3,4} and find(1) then returns
false; in general, in the absence of find, filling a shard of capacity n with
distinct keys k₁…kₙ in order and inserting kₙ₊₁ leaves exactly the survivors
k₂…kₙ₊₁ in LRU order. -/
theorem C1_lru_eviction_and_promotion :
    ((((((LRUCache.init 3 : LRUCache Nat Nat).insert 1 10).2.insert 2 20).2.insert
        3 30).2.find ConstAccessor.new 2).1 = true ∧
      (((((LRUCache.init 3 : LRUCache Nat Nat).insert 1 10).2.insert 2 20).2.insert
        3 30).2.find ConstAccessor.new 2).2.1.get = 20 ∧
      mapKeys ((((((LRUCache.init 3 : LRUCache Nat Nat).insert 1 10).2.insert
        2 20).2.insert 3 30).2.find ConstAccessor.new 2).2.2.insert 4 40).2.hash_map
        = [2, 3, 4] ∧
      (((((((LRUCache.init 3 : LRUCache Nat Nat).insert 1 10).2.insert 2 20).2.insert
        3 30).2.find ConstAccessor.new 2).2.2.insert 4 40).2.find
        ConstAccessor.new 1).1 = false) ∧
    (∀ {K V : Type} [DecidableEq K] (pairs : List (K × V)) (k : K) (v : V) (cap : Nat),
      (mapKeys (pairs ++ [(k, v)])).Nodup → pairs.length = cap → 1 ≤ cap → cap < W64 →
      LRUCache.insertAll (LRUCache.init cap) (pairs ++ [(k, v)]) =
        ⟨pairs.tail ++ [(k, v)], (mapKeys pairs).tail ++ [k], cap, cap⟩) := by
  refine ⟨⟨by decide, by decide, by decide, by decide⟩, ?_⟩
  intro K V instK pairs k v cap h1 h2 h3 h4
  exact lru_eviction_general pairs k v cap h1 h2 h3 h4

/-- Witness for C1: the general eviction law evaluated on filling a capacity-3
shard with keys 1,2,3 and then inserting key 4; the survivors are 2,3,4. -/
theorem C1_lru_eviction_witness :
    LRUCache.insertAll (LRUCache.init 3)
        ([((1 : Nat), (10 : Nat)), (2, 20), (3, 30)] ++ [(4, 40)]) =
      ⟨[((1 : Nat), (10 : Nat)), (2, 20), (3, 30)].tail ++ [(4, 40)],
        (mapKeys [((1 : Nat), (10 : Nat)), (2, 20), (3, 30)]).tail ++ [4], 3, 3⟩ :=
  C1_lru_eviction_and_promotion.2 [(1, 10), (2, 20), (3, 30)] 4 40 3
    (by decide) (by decide) (by decide) (by decide)

/-- Claim C2: for every key k and value v, a successful insert(k,v) followed,
with no intervening operation in the shard, by find(handle, k) returns true and
the value carried by the handle equals v. -/
theorem C2_insert_find_roundtrip {K V : Type} [DecidableEq K] [Inhabited V]
    (s : LRUCache K V) (k : K) (v : V) (hwf : WF s) (hins : (s.insert k v).1 = true) :
    (((s.insert k v).2).find ConstAccessor.new k).1 = true ∧
      ((((s.insert k v).2).find ConstAccessor.new k).2.1).get = v := by
  have hf : mapFind s.hash_map k = none := (insert_fst s k v).mp hins
  have hsome := insert_mapFind_self v hwf hf
  obtain ⟨h1, h2⟩ := find_hit (s := (s.insert k v).2) ConstAccessor.new hsome
  exact ⟨h1, by rw [h2]; rfl⟩

/-- Witness for C2: inserting (1,10) into a fresh capacity-3 shard and then
finding key 1 yields true and the value 10. -/
theorem C2_insert_find_roundtrip_witness :
    ((((LRUCache.init 3 : LRUCache Nat Nat).insert 1 10).2).find
        ConstAccessor.new 1).1 = true ∧
      (((((LRUCache.init 3 : LRUCache Nat Nat).insert 1 10).2).find
        ConstAccessor.new 1).2.1).get = 10 :=
  C2_insert_find_roundtrip (LRUCache.init 3) 1 10 (WF_init (by decide) (by decide))
    (by decide)

/-- Claim C3: after any sequence of completed operations (insert, find, erase,
clear) on a shard, the set of keys present in the hash map equals the set of
keys carried by the nodes linked in the shard's recency list. -/
theorem C3_map_list_key_correspondence {K V : Type} [DecidableEq K] [Inhabited V]
    (cap : Nat) (ops : List (Op K V)) (x : K) :
    x ∈ ((LRUCache.init cap : LRUCache K V).run ops).order ↔
      x ∈ mapKeys ((LRUCache.init cap : LRUCache K V).run ops).hash_map := by
  have hc := run_WFcore (WFcore_init cap) ops
  exact ⟨fun h => hc.2.2.1 x h, fun h => hc.2.2.2 x h⟩

/-- Counterexample for C4: the dispatcher split can create a zero-capacity
shard; with total_capacity 1 and shard_count 2, a key hashing to shard 1 is
stored there, so that shard holds 1 live entry, exceeding its capacity 0. -/
theorem C4_counterexample :
    ¬ (∀ sh ∈ ((ScalableLRUCache.init 1 2 : ScalableLRUCache Nat Nat).insert
        (fun k => k <<< 48) 1 99).2.shards, sh.hash_map.length ≤ sh.capacity) := by
  decide

/-- Claim C4 as amended: provided shard_count ≤ total_capacity (so the
total_capacity/shard_count split gives every shard a capacity of at least 1),
after any sequence of completed operations every shard of the dispatcher holds
at most its capacity in live entries. -/
theorem C4_capacity_bound_amended {K V : Type} [DecidableEq K] [Inhabited V]
    (hash : K → Nat) (total count : Nat) (ops : List (Op K V))
    (hcnt : count ≤ total) (hlt : total < W64) :
    ∀ sh ∈ (ScalableLRUCache.run hash (ScalableLRUCache.init total count) ops).shards,
      sh.hash_map.length ≤ sh.capacity := by
  have hd := run_DWF (init_DWF hcnt hlt) hash ops
  intro sh hsh
  exact (hd.2 sh hsh).2.2.1

/-- Witness for C4: shard 0 of a 7/4 dispatcher after two inserts holds at most
its capacity in live entries. -/
theorem C4_capacity_bound_witness :
    ((ScalableLRUCache.run (fun k => k)
        (ScalableLRUCache.init 7 4 : ScalableLRUCache Nat Nat)
        [Op.insert 1 10, Op.insert 2 20]).shards.getD 0
          (LRUCache.init 0)).hash_map.length ≤
      ((ScalableLRUCache.run (fun k => k)
        (ScalableLRUCache.init 7 4 : ScalableLRUCache Nat Nat)
        [Op.insert 1 10, Op.insert 2 20]).shards.getD 0 (LRUCache.init 0)).capacity :=
  C4_capacity_bound_amended (fun k => k) 7 4 [Op.insert 1 10, Op.insert 2 20]
    (by decide) (by decide) _ (by decide)

/-- Claim C5: inserting an already-present key returns false and changes
nothing: the stored value, the size and the recency order all stay as they
were; concretely insert(5,50) → true, insert(5,99) → false, find(5) yields 50. -/
theorem C5_duplicate_insert_noop :
    (∀ {K V : Type} [DecidableEq K] (s : LRUCache K V) (k : K) (v vNew : V),
      mapFind s.hash_map k = some v → s.insert k vNew = (false, s)) ∧
    (((LRUCache.init 3 : LRUCache Nat Nat).insert 5 50).1 = true ∧
      ((((LRUCache.init 3 : LRUCache Nat Nat).insert 5 50).2).insert 5 99).1 = false ∧
      ((((((LRUCache.init 3 : LRUCache Nat Nat).insert 5 50).2).insert 5 99).2).find
        ConstAccessor.new 5).2.1.get = 50) := by
  refine ⟨?_, by decide, by decide, by decide⟩
  intro K V instK s k v vNew hf
  simp [LRUCache.insert, hf]

/-- Witness for C5: a second insert of key 5 returns false and leaves the
shard exactly as it was. -/
theorem C5_duplicate_insert_witness :
    (((LRUCache.init 3 : LRUCache Nat Nat).insert 5 50).2).insert 5 99 =
      (false, ((LRUCache.init 3 : LRUCache Nat Nat).insert 5 50).2) :=
  C5_duplicate_insert_noop.1 _ 5 50 99 (by decide)

/-- Claim C6: for a dispatcher with positive shard_count, each shard's
capacity is total/shard_count with the remainder added to the first shard, so
capacity() sums to exactly the total; for total 7 and 4 shards the capacities
are 4,1,1,1 and capacity() = 7. -/
theorem C6_capacity_split :
    (∀ total count : Nat, 0 < count →
      (ScalableLRUCache.init total count : ScalableLRUCache Nat Nat).capacity = total ∧
      (ScalableLRUCache.init total count : ScalableLRUCache Nat Nat).capacityAt 0 =
        total / count + total % count ∧
      ∀ i, 0 < i → i < count →
        (ScalableLRUCache.init total count : ScalableLRUCache Nat Nat).capacityAt i =
          total / count) ∧
    ((ScalableLRUCache.init 7 4 : ScalableLRUCache Nat Nat).capacity = 7 ∧
      (ScalableLRUCache.init 7 4 : ScalableLRUCache Nat Nat).capacityAt 0 = 4 ∧
      (ScalableLRUCache.init 7 4 : ScalableLRUCache Nat Nat).capacityAt 1 = 1 ∧
      (ScalableLRUCache.init 7 4 : ScalableLRUCache Nat Nat).capacityAt 2 = 1 ∧
      (ScalableLRUCache.init 7 4 : ScalableLRUCache Nat Nat).capacityAt 3 = 1) := by
  constructor
  · intro total count h
    exact ⟨init_capacity h, init_capacityAt_zero h,
      fun i h0 hi => init_capacityAt_pos h0 hi⟩
  · exact ⟨by decide, by decide, by decide, by decide, by decide⟩

/-- Witness for C6: the general split law at total 7, count 4 gives an
aggregate capacity of exactly 7. -/
theorem C6_capacity_split_witness :
    (ScalableLRUCache.init 7 4 : ScalableLRUCache Nat Nat).capacity = 7 :=
  (C6_capacity_split.1 7 4 (by decide)).1

/-- Counterexample for C7: find releases the map read-accessor on the hit path
as well ("release early"), so after a find that returns true the handle's
empty() is also true — the claimed equivalence between returning false and an
empty handle fails on a hit. -/
theorem C7_counterexample :
    ¬ ((((LRUCache.init 3 : LRUCache Nat Nat).insert 1 10).2.find
        ConstAccessor.new 1).1 = false ↔
      ((((LRUCache.init 3 : LRUCache Nat Nat).insert 1 10).2.find
        ConstAccessor.new 1).2.1).empty = true) := by
  decide

/-- Claim C7 as amended: a find that returns false leaves the handle empty,
but the read-accessor is released on both paths, so the handle's empty() is
true after every find; on a hit, dereferencing the handle yields the copy of
the stored value taken at lookup time. -/
theorem C7_find_handle_amended {K V : Type} [DecidableEq K] (s : LRUCache K V)
    (ac : ConstAccessor V) (k : K) :
    (((s.find ac k).2.1).empty = true) ∧
    ((s.find ac k).1 = false → ((s.find ac k).2.1).empty = true) ∧
    ((s.find ac k).1 = true → mapFind s.hash_map k = some (((s.find ac k).2.1).get)) := by
  cases hf : mapFind s.hash_map k with
  | none =>
    rw [find_miss ac hf]
    simp [ConstAccessor.empty, ConstAccessor.release]
  | some v =>
    obtain ⟨h1, h2⟩ := find_hit ac hf
    rw [h2, h1]
    exact ⟨rfl, by simp, fun _ => rfl⟩

/-- Witness for C7: on the hit find(1) after insert(1,10), the stored value
equals the value carried by the (released but readable) handle. -/
theorem C7_find_handle_witness :
    mapFind (((LRUCache.init 3 : LRUCache Nat Nat).insert 1 10).2).hash_map 1 =
      some (((((LRUCache.init 3 : LRUCache Nat Nat).insert 1 10).2.find
        ConstAccessor.new 1).2.1).get) :=
  (C7_find_handle_amended (((LRUCache.init 3 : LRUCache Nat Nat).insert 1 10).2)
    ConstAccessor.new 1).2.2 (by decide)

/-- Claim C8: erase of a present key returns 1 and decrements size() by
exactly one; erase of an absent key (including on an empty cache) returns 0
and leaves the entire observable cache state unchanged. -/
theorem C8_erase_semantics {K V : Type} [DecidableEq K] (s : LRUCache K V) (k : K) :
    (mapFind s.hash_map k = none → s.erase k = (0, s)) ∧
    (∀ v, WF s → mapFind s.hash_map k = some v →
      (s.erase k).1 = 1 ∧ ((s.erase k).2).size + 1 = s.size) := by
  constructor
  · intro hf
    simp [LRUCache.erase, hf]
  · intro v hwf hf
    have hkmem := mem_mapKeys_of_mapFind_eq_some hf
    have hmem : k ∈ s.order := hwf.1.2.2.2 k hkmem
    have herl := length_mapErase hkmem
    obtain ⟨hc, hsz, hle, hpos, hlt⟩ := hwf
    rw [erase_spec_found hf hmem]
    refine ⟨rfl, ?_⟩
    show decSize s.current_size + 1 = s.current_size
    rw [decSize_eq (by omega)]
    omega

/-- Witness for C8: erase(999) on an empty capacity-3 cache returns 0 and
leaves the cache unchanged. -/
theorem C8_erase_semantics_witness :
    (LRUCache.init 3 : LRUCache Nat Nat).erase 999 = (0, LRUCache.init 3) :=
  (C8_erase_semantics (LRUCache.init 3) 999).1 (by decide)

/-- Claim C9: find leaves the stored entries (keys and values) and the shard's
size() unchanged, whether it hits or misses; the only shard state it may
modify is the position of the found node within the recency list. -/
theorem C9_find_frame_effect {K V : Type} [DecidableEq K] (s : LRUCache K V)
    (ac : ConstAccessor V) (k : K) :
    ((s.find ac k).2.2).hash_map = s.hash_map ∧
    ((s.find ac k).2.2).size = s.size ∧
    ((s.find ac k).2.2).cache_size = s.cache_size ∧
    (((s.find ac k).2.2).order = s.order ∨
      ((s.find ac k).2.2).order = s.order.erase k ++ [k]) :=
  find_frame s ac k

/-- Counterexample for C10: a handle that has previously hit keeps its stored
value across a later find that returns false, so dereferencing after that miss
yields the old value 50, not a default-constructed value. -/
theorem C10_counterexample :
    ((((LRUCache.init 3 : LRUCache Nat Nat).insert 1 50).2.find
        ((((LRUCache.init 3 : LRUCache Nat Nat).insert 1 50).2.find
          ConstAccessor.new 1).2.1) 2).1 = false) ∧
      ¬ (((((LRUCache.init 3 : LRUCache Nat Nat).insert 1 50).2.find
        ((((LRUCache.init 3 : LRUCache Nat Nat).insert 1 50).2.find
          ConstAccessor.new 1).2.1) 2).2.1).get = (default : Nat)) := by
  decide

/-- Claim C10 as amended: dereferencing a ConstAccessor is total and always
reads the handle's internally stored value copy, never the map; a freshly
constructed handle dereferences to a default-constructed value, and a find
that returns false leaves the handle's stored value unchanged (so it is still
the default iff the handle never hit). -/
theorem C10_deref_total_amended {K V : Type} [DecidableEq K] [Inhabited V]
    (s : LRUCache K V) (ac : ConstAccessor V) (k : K) :
    ConstAccessor.get ac = ac.value ∧
    ((ConstAccessor.new : ConstAccessor V).get = (default : V)) ∧
    ((s.find ac k).1 = false → ((s.find ac k).2.1).value = ac.value) := by
  refine ⟨rfl, rfl, ?_⟩
  intro hmiss
  cases hf : mapFind s.hash_map k with
  | none =>
    rw [find_miss ac hf]
    rfl
  | some v =>
    rw [(find_hit ac hf).1] at hmiss
    simp at hmiss

/-- Witness for C10: a find that misses on an empty cache leaves the fresh
handle's stored value unchanged. -/
theorem C10_deref_total_witness :
    ((((LRUCache.init 3 : LRUCache Nat Nat).find ConstAccessor.new 1).2.1).value =
      (ConstAccessor.new : ConstAccessor Nat).value) :=
  (C10_deref_total_amended (LRUCache.init 3) ConstAccessor.new 1).2.2 (by decide)

end LRUC
